import Mathlib

/-!
Verification of the Merkle-Patricia trie mutation engine (`merkle/put.go`).

The Go source under `src/merkle/put.go` is embedded shallowly: bytes are
`Nat`, hex-nibble strings are `List Char`, nodes are a closed inductive,
and the two content-addressed stores are association lists from storage
key (the node's serialized content, standing in for its content hash) to
stored payload.  Collaborators whose code is not part of the sources
(`Get`, the node containers, the store primitives, `commonPrefix`,
`crypto.Sha256`) are modelled from the specification and carry a
`Modelled from the spec:` doc comment.
-/

namespace Merkle

/-- Association-list lookup (first match wins). -/
def lookupA {α β : Type} [DecidableEq α] : List (α × β) → α → Option β
  | [], _ => none
  | (k, v) :: rest, key => if k = key then some v else lookupA rest key

/-- Association-list insert-or-overwrite, preserving the position of an
existing key. -/
def insertA {α β : Type} [DecidableEq α] : List (α × β) → α → β → List (α × β)
  | [], key, val => [(key, val)]
  | (k, v) :: rest, key, val =>
      if k = key then (key, val) :: rest else (k, v) :: insertA rest key val

/-- Association-list removal of every binding of a key. -/
def eraseA {α β : Type} [DecidableEq α] : List (α × β) → α → List (α × β)
  | [], _ => []
  | (k, v) :: rest, key =>
      if k = key then eraseA rest key else (k, v) :: eraseA rest key

/-- Modelled from the spec: the `shortNode` record shared by Leaf and
Extension nodes (`merkle/shortnode.go`, not under `src/`): a stored
nibble path plus a value field, which holds the user value for a Leaf
and the child hash reference for an Extension (`setExtChild` writes this
same field on either variant). -/
structure ShortNode where
  path : List Char
  value : List Nat
deriving DecidableEq, Repr

/-- Modelled from the spec: the three node variants (`merkle/node.go`,
not under `src/`).  A Branch stores a mapping from a single nibble to a
child hash reference plus an optional value (empty list = no value). -/
inductive Node where
  | leaf (sn : ShortNode)
  | ext (sn : ShortNode)
  | branch (children : List (Char × List Nat)) (value : List Nat)
deriving DecidableEq, Repr

/-- Modelled from the spec: canonical serialization of a node; its hash
is the node's storage key.  Since the digest collaborator is only
required to be deterministic and collision-resistant, we model the
content hash by the (injective) canonical serialization itself. -/
def encList (l : List Nat) : List Nat := l.length :: l

/-- Length-prefixed encoding of a nibble path. -/
def encPath (p : List Char) : List Nat := p.length :: p.map Char.toNat

/-- Modelled from the spec: `getNodeHash` — the node's content hash,
represented by its injective canonical serialization. -/
def serialize : Node → List Nat
  | .leaf sn => 0 :: (encPath sn.path ++ encList sn.value)
  | .ext sn => 1 :: (encPath sn.path ++ encList sn.value)
  | .branch ch val =>
      2 :: ((ch.foldr (fun c acc => c.1.toNat :: (encList c.2 ++ acc)) []) ++ encList val)

/-- The in-memory tree handle `merkleTreeImp`: the current root node (if
any), the Node Store and the Value Store, both content-addressed. -/
structure TreeState where
  root : Option Node
  nodeStore : List (List Nat × Node)
  valueStore : List (List Nat × List Nat)
deriving DecidableEq, Repr

/-- The empty tree over empty stores. -/
def emptyState : TreeState := ⟨none, [], []⟩

/-- Modelled from the spec: Node Store `persist(node)` — keyed by the
node's own content hash, idempotent overwrite. -/
def persistNode (st : TreeState) (n : Node) : TreeState :=
  { st with nodeStore := insertA st.nodeStore (serialize n) n }

/-- Modelled from the spec: Node Store `remove(hash)` as used by
`removeNodeFromStore(node)` — deletes the entry stored under the hash of
the node's (current) content. -/
def removeNodeFromStore (st : TreeState) (n : Node) : TreeState :=
  { st with nodeStore := eraseA st.nodeStore (serialize n) }

/-- Modelled from the spec: `crypto.Sha256` — a deterministic 32-byte
content digest (any collision-resistant digest is allowed; we use a
simple executable 32-byte fold). -/
def sha256 (v : List Nat) : List Nat :=
  (List.range 32).map fun i => (v.foldl (fun a b => (a * 31 + b + 1) % 256) (i + v.length)) % 256

/-- Modelled from the spec: Value Store `persist(value)` — stores a
large value under its content hash. -/
def persistUserValue (st : TreeState) (v : List Nat) : TreeState :=
  { st with valueStore := insertA st.valueStore (sha256 v) v }

/-- One hex digit (0-f) for a nibble. -/
def hexDigit (n : Nat) : Char :=
  if n < 10 then Char.ofNat (48 + n) else Char.ofNat (87 + n)

/-- Modelled from the spec: `hex.EncodeToString` — a raw key becomes its
nibble path, two hex digits per byte, high nibble first. -/
def hexEncode (k : List Nat) : List Char :=
  k.foldr (fun b acc => hexDigit (b / 16 % 16) :: hexDigit (b % 16) :: acc) []

/-- Modelled from the spec: the common-prefix utility (§4.7) — the
longest shared leading subsequence of two nibble paths. -/
def commonPrefix : List Char → List Char → List Char
  | a :: as, b :: bs => if a = b then a :: commonPrefix as bs else []
  | _, _ => []

/-- The function `getPathLength` (put.go:127-138): the number of hex chars matched by
nodes in the stack, counting 1 per Branch and the stored path length per
Extension, and excluding Leaves. -/
def getPathLength (s : List Node) : Int :=
  s.foldl
    (fun l n =>
      match n with
      | .branch _ _ => l + 1
      | .ext sn => l + (sn.path.length : Int)
      | .leaf _ => l)
    0

/-- Error kinds of the engine (§7): empty user data on Put, a store
load failure (dangling hash reference), a structural cursor violation
in Commit, and exhausted traversal fuel (unreachable on acyclic
stores). -/
inductive MErr where
  | invalidUserData
  | storeFailure
  | invalidPos
  | fuelExhausted
deriving DecidableEq, Repr

/-- Decidable equality for the outcome channel of the engine. -/
instance decEqExceptMErrUnit : DecidableEq (Except MErr Unit)
  | .ok (), .ok () => isTrue rfl
  | .error e, .error f =>
      if h : e = f then isTrue (by rw [h])
      else isFalse fun hc => h (Except.error.inj hc)
  | .ok (), .error _ => isFalse fun hc => Except.noConfusion hc
  | .error _, .ok () => isFalse fun hc => Except.noConfusion hc

/-- Modelled from the spec: dereferencing a trie-level user value on
read — when the stored user value is a 32-byte content hash present in
the Value Store, the full value is returned, otherwise the inline value
itself (§4.2, §8 round trip). -/
def derefUserValue (st : TreeState) (uv : List Nat) : List Nat :=
  if uv.length = 32 then (lookupA st.valueStore uv).getD uv else uv

/-- Modelled from the spec: the traversal loop of `Get` (§4.3,
`merkle/get.go` not under `src/`).  Descends from a node, consuming one
nibble per Branch and a full stored path per matched Extension;
terminates short on partial matches.  Returns the found value (after a
Value Store dereference), the path stack of visited nodes (deepest
first), and a store failure when a recorded child hash does not resolve
(§7 StoreFailure).  `fuel` bounds the descent; it is chosen large
enough to be exhausted only on cyclic stores. -/
def getRec (st : TreeState) : Nat → List Char → Node → Option (List Nat) × List Node × Option MErr
  | 0, _, n => (none, [n], some .fuelExhausted)
  | fuel + 1, rem, n =>
    match n with
    | .leaf sn =>
        if sn.path = rem then (some (derefUserValue st sn.value), [n], none)
        else (none, [n], none)
    | .ext sn =>
        let cp := commonPrefix sn.path rem
        if cp.length = sn.path.length then
          match lookupA st.nodeStore sn.value with
          | some child =>
              let r := getRec st fuel (rem.drop sn.path.length) child
              (r.1, r.2.1 ++ [n], r.2.2)
          | none => (none, [n], some .storeFailure)
        else (none, [n], none)
    | .branch ch val =>
        match rem with
        | [] => (if val = [] then none else some (derefUserValue st val), [n], none)
        | c :: rest =>
          match lookupA ch c with
          | some h =>
            match lookupA st.nodeStore h with
            | some child =>
                let r := getRec st fuel rest child
                (r.1, r.2.1 ++ [n], r.2.2)
            | none => (none, [n], some .storeFailure)
          | none => (none, [n], none)

/-- Modelled from the spec: `Get(k)` (§4.3) — converts the raw key to
its nibble path and walks from the root, returning the stored value (if
the full path matches a Leaf or a value-bearing Branch), the path stack
top-first, and any store error. -/
def Get (k : List Nat) (st : TreeState) : Option (List Nat) × List Node × Option MErr :=
  match st.root with
  | none => (none, [], none)
  | some r => getRec st (2 * k.length + st.nodeStore.length + 1) (hexEncode k) r

/-- The loop body of `update` (put.go:80-120), processing the stack
deepest-node first: a Branch with a produced child attaches it under
the cursor nibble (failing fast on an out-of-range cursor) and the
cursor retreats by one; an Extension retreats the cursor by its stored
path and relinks its child hash; a Leaf only retreats the cursor.
Every processed node is persisted.  Returns the error outcome, the
resulting store state, and the stack with its processed prefix
rewritten (the Go code mutates the stacked containers in place). -/
def updateLoop (k : List Char) : Int → Option Node → List Node → TreeState → Except MErr Unit × TreeState × List Node
  | _, _, [], st => (.ok (), st, [])
  | pos, lastRoot, n :: rest, st =>
    match n with
    | .branch ch val =>
        match lastRoot with
        | some lr =>
            if pos < 0 ∨ pos = (k.length : Int) then (.error .invalidPos, st, n :: rest)
            else
              let n' := Node.branch (insertA ch (k.getD pos.toNat 'x') (serialize lr)) val
              let st' := persistNode st n'
              let r := updateLoop k (pos - 1) (some n') rest st'
              (r.1, r.2.1, n' :: r.2.2)
        | none =>
            let st' := persistNode st n
            let r := updateLoop k pos (some n) rest st'
            (r.1, r.2.1, n :: r.2.2)
    | .ext sn =>
        let pos' := pos - (sn.path.length : Int)
        let n' := match lastRoot with
          | some lr => Node.ext ⟨sn.path, serialize lr⟩
          | none => n
        let st' := persistNode st n'
        let r := updateLoop k pos' (some n') rest st'
        (r.1, r.2.1, n' :: r.2.2)
    | .leaf sn =>
        let pos' := pos - (sn.path.length : Int)
        let st' := persistNode st n
        let r := updateLoop k pos' (some n) rest st'
        (r.1, r.2.1, n :: r.2.2)

/-- The function `update` (put.go:67-123): Commit — walk the path stack from its
deepest node to the root, rewiring each parent to its child's new hash
and re-persisting every node, with the cursor into `k` starting at the
last nibble index. -/
def update (k : List Char) (s : List Node) (st : TreeState) : Except MErr Unit × TreeState × List Node :=
  updateLoop k ((k.length : Int) - 1) none s st

/-- The split case of `upsert` (put.go:200-269): the top node is a Leaf
or Extension only partially matching the remaining key.  An Extension
covering the common prefix is inserted when it is non-empty, a Branch
forks on the first diverging nibble (absorbing the old node's value
when its path is consumed), and a new Leaf carries the remaining key
suffix when the key is not exhausted.  `isLeafN` tells whether
`lastNode` is a Leaf; `sn` is its short-node record. -/
def upsertSplit (pos : Int) (k : List Char) (v : List Nat) (lastNode : Node) (sn : ShortNode)
    (isLeafN : Bool) (srest : List Node) (st : TreeState) : TreeState × List Node :=
  let lastNodePath := sn.path
  let cp := commonPrefix lastNodePath (k.drop pos.toNat)
  let cpl := cp.length
  let stackExt : List Node :=
    if 0 < cpl then [Node.ext ⟨lastNodePath.take cpl, []⟩] else []
  let lastNodePath1 := if 0 < cpl then lastNodePath.drop cpl else lastNodePath
  let pos1 := if 0 < cpl then pos + cpl else pos
  let next : Node × TreeState :=
    match lastNodePath1 with
    | c :: pRest =>
        if pRest ≠ [] ∨ isLeafN then
          -- shrink ext or leaf, re-persist, hang it under the branch
          let st1 := removeNodeFromStore st lastNode
          let lastNode' := if isLeafN then Node.leaf ⟨pRest, sn.value⟩ else Node.ext ⟨pRest, sn.value⟩
          let st2 := persistNode st1 lastNode'
          (Node.branch (insertA [] c (serialize lastNode')) [], st2)
        else
          -- remove ext and set as branch's value
          (Node.branch [] sn.value, removeNodeFromStore st lastNode)
    | [] =>
        -- removed ext or leaf node entirely
        let st1 := removeNodeFromStore st lastNode
        (if isLeafN then Node.branch [] sn.value else Node.branch [] [], st1)
  let newBranch := next.1
  let st3 := next.2
  let tail := stackExt ++ srest
  if pos1 < (k.length : Int) then
    let pos2 := pos1 + 1
    let newLeaf := Node.leaf ⟨k.drop pos2.toNat, v⟩
    let r := update k (newLeaf :: newBranch :: tail) st3
    (r.2.1, r.2.2)
  else
    let r := update k (newBranch :: tail) st3
    (r.2.1, r.2.2)

/-- The function `upsert` (put.go:145-270): insert or update `(k, v)` given the path
stack from `Get`.  Case 1: empty stack — create and persist a sole
Leaf.  Case 2: top is a Leaf whose path is fully shared with `k[l:]`
and `pos` equals the key length — overwrite its value in place.  Case
3: top is a Branch — hang a new Leaf with the key remainder under it,
or store the value at the branch itself.  Case 4: split a partially
matching Leaf or Extension.  Errors returned by the inner `update`
calls are discarded, as in the source. -/
def upsert (pos : Int) (k : List Char) (v : List Nat) (s : List Node) (st : TreeState) : TreeState × List Node :=
  match s with
  | [] =>
      let newLeaf := Node.leaf ⟨k, v⟩
      (persistNode st newLeaf, [newLeaf])
  | lastNode :: srest =>
    match lastNode with
    | .leaf sn =>
        let l := (getPathLength srest).toNat
        let cp := commonPrefix sn.path (k.drop l)
        if cp.length = sn.path.length ∧ pos = (k.length : Int) then
          let st1 := removeNodeFromStore st lastNode
          let r := update k (Node.leaf ⟨sn.path, v⟩ :: srest) st1
          (r.2.1, r.2.2)
        else
          upsertSplit pos k v lastNode sn true srest st
    | .ext sn => upsertSplit pos k v lastNode sn false srest st
    | .branch ch _val =>
        if pos < (k.length : Int) then
          let pos' := pos + 1
          let newLeaf := Node.leaf ⟨k.drop pos'.toNat, v⟩
          let r := update k (newLeaf :: lastNode :: srest) st
          (r.2.1, r.2.2)
        else
          let lastNode' := Node.branch ch v
          let st1 := removeNodeFromStore st lastNode'
          let r := update k (lastNode' :: srest) st1
          (r.2.1, r.2.2)

/-- The user-value computation of `Put` (put.go:22-34): a value longer
than 32 bytes is persisted in the Value Store and replaced by its
32-byte content hash; a short value is used inline. -/
def computeUserValue (v : List Nat) (st : TreeState) : List Nat × TreeState :=
  if 32 < v.length then (sha256 v, persistUserValue st v) else (v, st)

/-- The function `Put` (put.go:16-62): reject empty user data; compute the user
value; consult `Get` (whose error is never checked, as in the source);
return unchanged when the stored value already equals `v`; otherwise
upsert at the path length matched by the stack and install the bottom
of the resulting stack as the new root. -/
def Put (k v : List Nat) (st : TreeState) : Except MErr Unit × TreeState :=
  if v = [] ∨ k = [] then (.error .invalidUserData, st)
  else
    let uv := computeUserValue v st
    let userValue := uv.1
    let st1 := uv.2
    let g := Get k st1
    let res := g.1
    let stack := g.2.1
    if res = some v then (.ok (), st1)
    else
      let hexKey := hexEncode k
      let pos := getPathLength stack
      let r := upsert pos hexKey userValue stack st1
      (.ok (), { r.1 with root := r.2.getLast? })

/-- Root commitment of a tree state: the hash of the root node. -/
def rootHash (st : TreeState) : Option (List Nat) := st.root.map serialize

/-- The stack path-length accounting exactly as the specification's
words state it: each Branch contributes 1 nibble, each Extension or
Leaf contributes the full length of its stored path.  Stated for
comparison with the source's `getPathLength`. -/
def specPathLength : List Node → Int
  | [] => 0
  | .branch _ _ :: rest => 1 + specPathLength rest
  | .ext sn :: rest => (sn.path.length : Int) + specPathLength rest
  | .leaf sn :: rest => (sn.path.length : Int) + specPathLength rest

/-- The corrected accounting: as `specPathLength`, but Leaf nodes are
excluded (contribute 0), matching the comment on `getPathLength`
(put.go:125-126). -/
def specPathLengthExclLeaves : List Node → Int
  | [] => 0
  | .branch _ _ :: rest => 1 + specPathLengthExclLeaves rest
  | .ext sn :: rest => (sn.path.length : Int) + specPathLengthExclLeaves rest
  | .leaf _ :: rest => specPathLengthExclLeaves rest

/-! Concrete states used by the counterexamples and witnesses.  The raw
key `[161]` (byte 0xa1) has nibble path `a1`; values are single bytes
(`[120]` and `[121]`), stored inline. -/

/-- State after `Put 0xa1 [120]` on the empty tree: a single leaf. -/
def stA : TreeState := (Put [161] [120] emptyState).2

/-- State after one `Put 0xa1 [121]` on `stA` (an overwrite with a
different value). -/
def stSingle : TreeState := (Put [161] [121] stA).2

/-- State after a second, identical `Put 0xa1 [121]` on `stSingle`. -/
def stDouble : TreeState := (Put [161] [121] stSingle).2

/-- The single leaf holding key 0xa131 ("a1" in ASCII): nibble path
`6131`, inline value `[120]`. -/
def leafA1 : Node := .leaf ⟨['6', '1', '3', '1'], [120]⟩

/-- A one-leaf tree whose store holds exactly that leaf. -/
def stL : TreeState := ⟨some leafA1, [(serialize leafA1, leafA1)], []⟩

/-- A tree whose root Branch records child hash `[99]` under nibble
`a`, with no such entry in the Node Store: a dangling reference, so a
load during traversal fails. -/
def stD : TreeState := ⟨some (.branch [('a', [99])] []), [], []⟩

/-- A Branch with no children and no value. -/
def branchEmpty : Node := .branch [] []

/-- The root Extension produced by the first overwriting Put in
`stSingle`: path `a1`, child hash of the branch holding value `[120]`. -/
def ext1 : Node := .ext ⟨['a', '1'], serialize (Node.branch [] [120])⟩

/-! ### Helper lemmas -/

theorem commonPrefix_self : ∀ (l : List Char), commonPrefix l l = l
  | [] => rfl
  | a :: as => by simp [commonPrefix, commonPrefix_self as]

theorem updateLoop_valueStore (k : List Char) :
    ∀ (s : List Node) (pos : Int) (lr : Option Node) (st : TreeState),
      (updateLoop k pos lr s st).2.1.valueStore = st.valueStore := by
  intro s
  induction s with
  | nil => intro pos lr st; rfl
  | cons n rest ih =>
    intro pos lr st
    cases n with
    | branch ch val =>
      cases lr with
      | some lr' =>
        by_cases h : pos < 0 ∨ pos = (k.length : Int)
        · simp [updateLoop, h]
        · simp [updateLoop, h, ih, persistNode]
      | none => simp [updateLoop, ih, persistNode]
    | ext sn => cases lr <;> simp [updateLoop, ih, persistNode]
    | leaf sn => simp [updateLoop, ih, persistNode]

theorem update_valueStore (k : List Char) (s : List Node) (st : TreeState) :
    (update k s st).2.1.valueStore = st.valueStore := by
  simp [update, updateLoop_valueStore]

theorem upsertSplit_valueStore (pos : Int) (k : List Char) (v : List Nat) (lastNode : Node)
    (sn : ShortNode) (isLeafN : Bool) (srest : List Node) (st : TreeState) :
    (upsertSplit pos k v lastNode sn isLeafN srest st).1.valueStore = st.valueStore := by
  simp only [upsertSplit]
  repeat' split
  all_goals simp [update_valueStore, removeNodeFromStore, persistNode]

theorem upsert_valueStore (pos : Int) (k : List Char) (v : List Nat) (s : List Node)
    (st : TreeState) : (upsert pos k v s st).1.valueStore = st.valueStore := by
  match s with
  | [] => simp [upsert, persistNode]
  | lastNode :: srest =>
    cases lastNode with
    | leaf sn =>
      simp only [upsert]
      split
      · simp [update_valueStore, removeNodeFromStore]
      · exact upsertSplit_valueStore ..
    | ext sn => exact upsertSplit_valueStore ..
    | branch ch val =>
      simp only [upsert]
      split
      · simp [update_valueStore]
      · simp [update_valueStore, removeNodeFromStore]

theorem put_valueStore (k v : List Nat) (st : TreeState) (hk : k ≠ []) (hv : v ≠ []) :
    (Put k v st).2.valueStore = (computeUserValue v st).2.valueStore := by
  simp only [Put]
  rw [if_neg (not_or.mpr ⟨hv, hk⟩)]
  split
  · rfl
  · simp [upsert_valueStore]

theorem lookupA_insertA_isSome {α β : Type} [DecidableEq α] :
    ∀ (l : List (α × β)) (key : α) (val : β) (h : α),
      (lookupA l h).isSome = true → (lookupA (insertA l key val) h).isSome = true := by
  intro l key val
  induction l with
  | nil => intro h hh; simp [lookupA] at hh
  | cons p rest ih =>
    intro h hh
    obtain ⟨k', v'⟩ := p
    simp only [insertA]
    by_cases hk : k' = key
    · rw [if_pos hk]
      simp only [lookupA] at hh ⊢
      by_cases hkey : key = h
      · rw [if_pos hkey]; simp
      · rw [if_neg hkey]
        rw [hk, if_neg hkey] at hh
        exact hh
    · rw [if_neg hk]
      simp only [lookupA] at hh ⊢
      by_cases hkh : k' = h
      · rw [if_pos hkh]; simp
      · rw [if_neg hkh] at hh ⊢
        exact ih h hh

theorem updateLoop_preserves_entries (k : List Char) :
    ∀ (s : List Node) (pos : Int) (lr : Option Node) (st : TreeState) (h : List Nat),
      (lookupA st.nodeStore h).isSome = true →
      (lookupA (updateLoop k pos lr s st).2.1.nodeStore h).isSome = true := by
  intro s
  induction s with
  | nil => intro pos lr st h hh; simpa [updateLoop] using hh
  | cons n rest ih =>
    intro pos lr st h hh
    cases n with
    | branch ch val =>
      cases lr with
      | none =>
        exact ih _ _ _ h (by simpa [persistNode] using lookupA_insertA_isSome st.nodeStore _ _ h hh)
      | some lr' =>
        simp only [updateLoop]
        split
        · simpa using hh
        · exact ih _ _ _ h (by simpa [persistNode] using lookupA_insertA_isSome st.nodeStore _ _ h hh)
    | ext sn =>
      cases lr with
      | none => exact ih _ _ _ h (by simpa [persistNode] using lookupA_insertA_isSome st.nodeStore _ _ h hh)
      | some lr' => exact ih _ _ _ h (by simpa [persistNode] using lookupA_insertA_isSome st.nodeStore _ _ h hh)
    | leaf sn =>
      exact ih _ _ _ h (by simpa [persistNode] using lookupA_insertA_isSome st.nodeStore _ _ h hh)

theorem getPathLength_aux (s : List Node) : ∀ (a : Int),
    List.foldl
      (fun l n =>
        match n with
        | .branch _ _ => l + 1
        | .ext sn => l + (sn.path.length : Int)
        | .leaf _ => l)
      a s = a + specPathLengthExclLeaves s := by
  induction s with
  | nil => intro a; simp [specPathLengthExclLeaves]
  | cons n rest ih =>
    intro a
    cases n with
    | branch ch val => simp only [List.foldl_cons, specPathLengthExclLeaves]; rw [ih]; ring
    | ext sn => simp only [List.foldl_cons, specPathLengthExclLeaves]; rw [ih]; ring
    | leaf sn => simp only [List.foldl_cons, specPathLengthExclLeaves]; rw [ih]

/-! ### Claim theorems -/

/-- C1 (counterexample): duplicate `Put` is not idempotent on root
hashes in general.  Starting from the one-leaf tree `stA` that stores
`[120]` under key 0xa1, a single `Put 0xa1 [121]` yields root hash
`rootHash stSingle`, but running the same `Put` twice yields a
different root hash: the first overwriting Put loses the new value (the
old leaf's value `[120]` is installed as the fork branch's value and
`[121]` is dropped because the key is already exhausted), so the second
`Put`'s duplicate check fails and the tree is restructured again. -/
theorem duplicate_put_root_hash_counterexample :
    (Get [161] stA).1 = some [120] ∧
    (Get [161] stSingle).1 = some [120] ∧
    rootHash stDouble ≠ rootHash stSingle := by decide

/-- C1 (amended): when the value observed by the `Get` performed inside
`Put` already equals `v`, `Put k v` is a no-op on the tree: it returns
`ok` and leaves the root, the Node Store, and hence the root hash
unchanged.  (Consequently `Put;Put` produces the same root hash as a
single `Put` exactly when the first `Put` really leaves `v` stored
under `k`, which the overwrite path does not guarantee.) -/
theorem put_noop_when_stored_value_matches (k v : List Nat) (st : TreeState)
    (hk : k ≠ []) (hv : v ≠ [])
    (hres : (Get k (computeUserValue v st).2).1 = some v) :
    (Put k v st).1 = Except.ok () ∧ (Put k v st).2.root = st.root ∧
    (Put k v st).2.nodeStore = st.nodeStore ∧ rootHash (Put k v st).2 = rootHash st := by
  have hput : Put k v st = (Except.ok (), (computeUserValue v st).2) := by
    simp only [Put]
    rw [if_neg (not_or.mpr ⟨hv, hk⟩), if_pos hres]
  have hcs : (computeUserValue v st).2.root = st.root ∧
      (computeUserValue v st).2.nodeStore = st.nodeStore := by
    simp only [computeUserValue]
    split <;> simp [persistUserValue]
  rw [hput]
  exact ⟨rfl, hcs.1, hcs.2, by simp [rootHash, hcs.1]⟩

/-- C1 (witness for the amended theorem): on the one-leaf tree `stA`
storing `[120]` under key 0xa1, a duplicate `Put 0xa1 [120]` leaves the
root, node store, and root hash unchanged. -/
theorem put_noop_when_stored_value_matches_witness :
    (Put [161] [120] stA).1 = Except.ok () ∧ (Put [161] [120] stA).2.root = stA.root ∧
    (Put [161] [120] stA).2.nodeStore = stA.nodeStore ∧
    rootHash (Put [161] [120] stA).2 = rootHash stA :=
  put_noop_when_stored_value_matches [161] [120] stA (by decide) (by decide) (by decide)

/-- C2 (counterexample): for the path stack `[leafA1]` produced by
`Get` on a one-leaf tree, the `pos` that `Put` passes to `upsert` is
`getPathLength [leafA1] = 0`, whereas the claimed accounting (Leaf
contributes its full stored path length) gives 4: `getPathLength`
excludes leaves. -/
theorem getPathLength_spec_counterexample :
    (Get [97, 49] stL).2.1 = [leafA1] ∧ (Get [97, 49] stL).1 = some [120] ∧
    getPathLength [leafA1] = 0 ∧ specPathLength [leafA1] = 4 ∧
    getPathLength [leafA1] ≠ specPathLength [leafA1] := by decide

/-- C2 (amended): `getPathLength`, the `pos` computed by `Put` for
`upsert`, counts 1 nibble per Branch and the full stored path length
per Extension, with Leaf nodes contributing nothing (they are
excluded, as the source comment states). -/
theorem getPathLength_excludes_leaves (s : List Node) :
    getPathLength s = specPathLengthExclLeaves s := by
  simp only [getPathLength]
  rw [getPathLength_aux]
  ring

/-- C3: a store failure inside `Get` is silently discarded by `Put`.
On the tree `stD`, whose root Branch holds a dangling child-hash
reference, `Get` reports a store failure, yet `Put` on the same state
returns success: the error assigned at put.go:38 is never checked and
is overwritten at put.go:53, contradicting the claim that every
persist/load/remove error is propagated to the caller of `Put`. -/
theorem put_swallows_get_store_error :
    (Get [161] stD).2.2 = some MErr.storeFailure ∧
    (Put [161] [120] stD).1 = Except.ok () := by decide

/-- C4: `update` does fail fast with an error when the cursor is
negative at a Branch relink, but `upsert` ignores that error
(put.go:196 discards `mt.update`'s return value) and completes
normally, returning the partially committed state — so the error does
not abort the enclosing `Put`. -/
theorem upsert_ignores_update_error :
    (update ['a', '1'] [Node.leaf ⟨['a', '1'], [120]⟩, branchEmpty, branchEmpty] emptyState).1 =
      Except.error MErr.invalidPos ∧
    upsert (-1) ['a', '1'] [120] [branchEmpty, branchEmpty] emptyState =
      (persistNode emptyState (Node.leaf ⟨['a', '1'], [120]⟩),
       [Node.leaf ⟨['a', '1'], [120]⟩, branchEmpty, branchEmpty]) := by decide

/-- C5 (counterexample): the Commit pass does not remove a relinked
node's entry under its old hash.  After the second `Put 0xa1 [121]`,
the root Extension's content changed (its child hash was rewired from
the branch holding `[120]` to the branch holding `[121]`), yet the
entry under the old extension's hash is still present in the Node
Store. -/
theorem stale_extension_entry_counterexample :
    stSingle.root = some ext1 ∧
    stDouble.root = some (Node.ext ⟨['a', '1'], serialize (Node.branch [] [121])⟩) ∧
    Node.ext ⟨['a', '1'], serialize (Node.branch [] [121])⟩ ≠ ext1 ∧
    lookupA stDouble.nodeStore (serialize ext1) = some ext1 := by decide

/-- C5 (amended): the mutations performed inside `upsert` are preceded
by a `removeNodeFromStore`, but the relink mutations performed by the
Commit pass (`update`: adding a Branch child, relinking an Extension's
child) never remove anything — `update` only persists, so every key
present in the Node Store before Commit is still present after it. -/
theorem update_never_removes_entries (k : List Char) (s : List Node) (st : TreeState)
    (h : List Nat) (hh : (lookupA st.nodeStore h).isSome = true) :
    (lookupA (update k s st).2.1.nodeStore h).isSome = true :=
  updateLoop_preserves_entries k s ((k.length : Int) - 1) none st h hh

/-- C5 (witness for the amended theorem): a concrete store entry
survives a Commit pass over a one-branch stack. -/
theorem update_never_removes_entries_witness :
    (lookupA (⟨none, [([5], branchEmpty)], []⟩ : TreeState).nodeStore [5]).isSome = true ∧
    (lookupA (update ['a'] [branchEmpty] ⟨none, [([5], branchEmpty)], []⟩).2.1.nodeStore
        [5]).isSome = true :=
  ⟨by decide, update_never_removes_entries ['a'] [branchEmpty] _ [5] (by decide)⟩

/-- C6: `Put` with an empty key or an empty value returns the
`InvalidUserData` error and leaves the entire state (root, Node Store,
Value Store) unchanged — the check precedes any store interaction. -/
theorem put_rejects_empty_input (k v : List Nat) (st : TreeState) (h : k = [] ∨ v = []) :
    Put k v st = (Except.error MErr.invalidUserData, st) := by
  simp only [Put]
  rw [if_pos h.symm]

/-- C6 (witness): `Put` of an empty key on the empty tree is rejected
with no side effects. -/
theorem put_rejects_empty_input_witness :
    Put [] [5] emptyState = (Except.error MErr.invalidUserData, emptyState) :=
  put_rejects_empty_input [] [5] emptyState (Or.inl rfl)

/-- C7: for non-empty `k, v`: when `v` is longer than 32 bytes it is
persisted in the Value Store (keyed by its content hash) and the
trie-level user value is the 32-byte content hash; when `v` is at most
32 bytes the user value is `v` itself and the Value Store is untouched
by the whole `Put`. -/
theorem put_user_value_threshold (k v : List Nat) (st : TreeState)
    (hk : k ≠ []) (hv : v ≠ []) :
    (32 < v.length →
       (computeUserValue v st).1 = sha256 v ∧ (sha256 v).length = 32 ∧
       (Put k v st).2.valueStore = insertA st.valueStore (sha256 v) v) ∧
    (v.length ≤ 32 →
       (computeUserValue v st).1 = v ∧ (Put k v st).2.valueStore = st.valueStore) := by
  constructor
  · intro hlen
    refine ⟨by simp [computeUserValue, hlen], by simp [sha256], ?_⟩
    rw [put_valueStore k v st hk hv]
    simp [computeUserValue, hlen, persistUserValue]
  · intro hlen
    have hnot : ¬ 32 < v.length := by omega
    refine ⟨by simp [computeUserValue, hnot], ?_⟩
    rw [put_valueStore k v st hk hv]
    simp [computeUserValue, hnot]

/-- C7 (witness): at the concrete 33-byte value `List.replicate 33 7`
and key `[97]`, the long-value branch stores the value in the Value
Store under its 32-byte hash. -/
theorem put_user_value_threshold_witness :
    (32 < (List.replicate 33 (7 : Nat)).length →
       (computeUserValue (List.replicate 33 7) emptyState).1 = sha256 (List.replicate 33 7) ∧
       (sha256 (List.replicate 33 7)).length = 32 ∧
       (Put [97] (List.replicate 33 7) emptyState).2.valueStore =
         insertA emptyState.valueStore (sha256 (List.replicate 33 7)) (List.replicate 33 7)) ∧
    ((List.replicate 33 (7 : Nat)).length ≤ 32 →
       (computeUserValue (List.replicate 33 7) emptyState).1 = List.replicate 33 7 ∧
       (Put [97] (List.replicate 33 7) emptyState).2.valueStore = emptyState.valueStore) :=
  put_user_value_threshold [97] (List.replicate 33 7) emptyState (by decide) (by decide)

/-- C8: when the top of the stack is a Leaf whose stored path exactly
equals the unmatched key suffix `k[l:]` and the whole key is consumed
(`pos = |k|`), `upsert` removes the old leaf from the store, overwrites
its value with `v`, pushes it back, and runs the Commit pass on the
stack — and nothing else. -/
theorem upsert_exact_leaf_match (sn : ShortNode) (pos : Int) (k : List Char) (v : List Nat)
    (srest : List Node) (st : TreeState)
    (hpath : sn.path = k.drop (getPathLength srest).toNat)
    (hpos : pos = (k.length : Int)) :
    upsert pos k v (Node.leaf sn :: srest) st =
      ((update k (Node.leaf ⟨sn.path, v⟩ :: srest) (removeNodeFromStore st (Node.leaf sn))).2.1,
       (update k (Node.leaf ⟨sn.path, v⟩ :: srest) (removeNodeFromStore st (Node.leaf sn))).2.2) := by
  simp only [upsert]
  rw [if_pos ⟨by rw [hpath, commonPrefix_self], hpos⟩]

/-- C8 (witness): the exact-leaf-match overwrite at the concrete leaf
`a1 ↦ [120]` (sole node of `stA`) with new value `[121]`. -/
theorem upsert_exact_leaf_match_witness :
    ((⟨['a', '1'], [120]⟩ : ShortNode).path =
       (['a', '1'].drop (getPathLength []).toNat)) ∧
    upsert 2 ['a', '1'] [121] [Node.leaf ⟨['a', '1'], [120]⟩] stA =
      ((update ['a', '1'] [Node.leaf ⟨['a', '1'], [121]⟩]
          (removeNodeFromStore stA (Node.leaf ⟨['a', '1'], [120]⟩))).2.1,
       (update ['a', '1'] [Node.leaf ⟨['a', '1'], [121]⟩]
          (removeNodeFromStore stA (Node.leaf ⟨['a', '1'], [120]⟩))).2.2) :=
  ⟨by decide,
   upsert_exact_leaf_match ⟨['a', '1'], [120]⟩ 2 ['a', '1'] [121] [] stA (by decide) (by decide)⟩

/-- C9: on an empty path stack, `upsert` creates a Leaf carrying the
whole key path and `v`, persists it, and pushes it as the sole stack
entry; the Value Store and the root pointer are untouched and no
Commit pass runs (the state change is exactly the one `persistNode`). -/
theorem upsert_empty_tree (pos : Int) (k : List Char) (v : List Nat) (st : TreeState) :
    upsert pos k v [] st = (persistNode st (Node.leaf ⟨k, v⟩), [Node.leaf ⟨k, v⟩]) ∧
    (upsert pos k v [] st).1.valueStore = st.valueStore ∧
    (upsert pos k v [] st).1.root = st.root :=
  ⟨rfl, rfl, rfl⟩

/-- C10: for a value longer than 32 bytes and a non-empty key, `Put`
writes `v` into the Value Store before consulting the tree, so the
final Value Store always contains the write — and in the duplicate
no-op case the resulting state is exactly `persistUserValue st v`: the
Value Store write has happened even though the tree is untouched. -/
theorem put_long_value_persisted_even_when_noop (k v : List Nat) (st : TreeState)
    (hk : k ≠ []) (hlen : 32 < v.length) :
    (Put k v st).2.valueStore = (persistUserValue st v).valueStore ∧
    ((Get k (persistUserValue st v)).1 = some v →
       Put k v st = (Except.ok (), persistUserValue st v)) := by
  have hv : v ≠ [] := by
    intro he
    rw [he] at hlen
    simp at hlen
  have hcuv : computeUserValue v st = (sha256 v, persistUserValue st v) := by
    simp [computeUserValue, hlen]
  constructor
  · rw [put_valueStore k v st hk hv, hcuv]
  · intro hres
    simp only [Put]
    rw [if_neg (not_or.mpr ⟨hv, hk⟩)]
    simp only [hcuv]
    rw [if_pos hres]

/-- C10 (witness): the 33-byte value at key `[97]` on the empty tree —
after `Put`, the Value Store holds the value under its hash. -/
theorem put_long_value_persisted_even_when_noop_witness :
    (Put [97] (List.replicate 33 7) emptyState).2.valueStore =
      (persistUserValue emptyState (List.replicate 33 7)).valueStore ∧
    ((Get [97] (persistUserValue emptyState (List.replicate 33 7))).1 =
        some (List.replicate 33 7) →
       Put [97] (List.replicate 33 7) emptyState =
         (Except.ok (), persistUserValue emptyState (List.replicate 33 7))) :=
  put_long_value_persisted_even_when_noop [97] (List.replicate 33 7) emptyState
    (by decide) (by decide)

end Merkle
